/-
  Verification of the granolocal converters (src/granolocal.py).

  Shallow embedding of the three converter cores:
    * `extract_text_from_prosemirror` — the Prosemirror-AST → Markdown renderer,
      over a Python-value type `PyVal` (None/bool/int/str/list/dict);
      Python exceptions are modelled as `Except.error`.
    * the `_HTMLToMarkdown` tag machine (`handle_starttag`/`handle_endtag`/
      `handle_data`/`get_markdown`) over an explicit event stream.
    * the shared-note payload scan of `fetch_shared_note` (`_decode_js_string`,
      the documentPanel loop, the HTML-fragment loop, `_find_in_rsc`).

  Python string primitives used by the source (str.strip, str.split, "".join,
  re.sub with the three concrete regexes of the file) are embedded explicitly
  below, restricted to ASCII whitespace where Python uses Unicode whitespace.
-/
import Mathlib

namespace Granolocal

/-! ## Python string primitives -/

/-- Whitespace stripped by Python `str.strip()` (ASCII subset). -/
def isPyWs (c : Char) : Bool :=
  c = ' ' || c = '\t' || c = '\n' || c = '\r' || c = '\x0b' || c = '\x0c'

/-- Drop trailing characters satisfying `p` (the right half of `str.strip`). -/
def dropTrailWhile (p : Char → Bool) : List Char → List Char
  | [] => []
  | c :: cs =>
    match dropTrailWhile p cs with
    | [] => if p c then [] else [c]
    | r => c :: r

/-- Python `str.strip()` on a character list. -/
def pyStripL (l : List Char) : List Char :=
  dropTrailWhile isPyWs (l.dropWhile isPyWs)

/-- Python `str.strip()`. -/
def pyStrip (s : String) : String := ⟨pyStripL s.data⟩

/-- Does `pat` occur as a contiguous substring of `s`?  (Python `in`.) -/
def containsSub (s pat : String) : Bool :=
  s.data.tails.any (fun t => pat.data.isPrefixOf t)

/-- Helper for `pySplitNl`: split at `'\n'`, accumulating the current
segment in reverse. -/
def splitNlAux : List Char → List Char → List (List Char)
  | [], acc => [acc.reverse]
  | '\n' :: rest, acc => acc.reverse :: splitNlAux rest []
  | c :: rest, acc => splitNlAux rest (c :: acc)

/-- Python `s.split("\n")`: always returns at least one segment. -/
def pySplitNl (s : String) : List String :=
  (splitNlAux s.data []).map (fun l => ⟨l⟩)

/-- Python `sep.join(parts)`. -/
def joinSep (sep : String) : List String → String
  | [] => ""
  | [x] => x
  | x :: xs => x ++ sep ++ joinSep sep xs

/-! ## Python values

Python values reachable from `json`-decoded data: `None`, booleans, integers,
strings, lists and (string-keyed) dicts.  Lists and dicts are mutually
inductive with `PyVal` so that all recursion over values is structural. -/

mutual
inductive PyVal where
  | none : PyVal
  | bool (b : Bool) : PyVal
  | int (n : Int) : PyVal
  | str (s : String) : PyVal
  | list (xs : PyList) : PyVal
  | dict (kvs : PyDict) : PyVal

inductive PyList where
  | nil : PyList
  | cons (hd : PyVal) (tl : PyList) : PyList

inductive PyDict where
  | nil : PyDict
  | cons (k : String) (v : PyVal) (tl : PyDict) : PyDict
end

/-- Build a `PyList` from a Lean list. -/
def toPyList : List PyVal → PyList
  | [] => .nil
  | x :: xs => .cons x (toPyList xs)

/-- A Python list value from a Lean list. -/
def pyList (xs : List PyVal) : PyVal := .list (toPyList xs)

/-- Build a `PyDict` from a Lean association list (insertion order kept). -/
def toPyDict : List (String × PyVal) → PyDict
  | [] => .nil
  | (k, v) :: kvs => .cons k v (toPyDict kvs)

/-- A Python dict value from a Lean association list. -/
def pyDict (kvs : List (String × PyVal)) : PyVal := .dict (toPyDict kvs)

/-- The Lean list underlying a `PyList`. -/
def PyList.toList : PyList → List PyVal
  | .nil => []
  | .cons x tl => x :: tl.toList

/-- The keys of a `PyDict`, in order. -/
def PyDict.keys : PyDict → List String
  | .nil => []
  | .cons k _ tl => k :: tl.keys

/-- Dict lookup (Python dicts have unique keys; first match). -/
def PyDict.lookup : PyDict → String → Option PyVal
  | .nil, _ => Option.none
  | .cons k v tl, key => if k = key then some v else tl.lookup key

/-- Python `d.get(key, default)` on a dict. -/
def PyDict.lookupD (d : PyDict) (key : String) (dflt : PyVal) : PyVal :=
  (d.lookup key).getD dflt

/-- Python `v == s` for a string literal `s` (values of other types compare
unequal to strings, without error). -/
def pyEqStr (v : PyVal) (s : String) : Bool :=
  match v with
  | .str t => t = s
  | _ => false

/-- Is the value a dict (`isinstance(node, dict)`)? -/
def isDictB : PyVal → Bool
  | .dict _ => true
  | _ => false

/-! ### `str()` / `repr()` of values (used by f-string interpolation) -/

/-- Escape one character inside a Python `repr` of a string with quote `q`. -/
def reprCharEsc (q c : Char) : String :=
  if c = '\\' then "\\\\"
  else if c = q then "\\" ++ String.singleton q
  else if c = '\n' then "\\n"
  else if c = '\r' then "\\r"
  else if c = '\t' then "\\t"
  else if c.toNat < 32 then
    "\\x" ++ String.singleton (Nat.digitChar (c.toNat / 16)) ++
      String.singleton (Nat.digitChar (c.toNat % 16))
  else String.singleton c

/-- Python `repr` of a string: single quotes, unless the string contains a
single quote and no double quote. -/
def pyReprStr (s : String) : String :=
  let q : Char := if s.data.contains '\'' && !s.data.contains '"' then '"' else '\''
  String.singleton q ++ String.join (s.data.map (reprCharEsc q)) ++ String.singleton q

mutual
/-- Python `repr` of a value. -/
def pyRepr : PyVal → String
  | .none => "None"
  | .bool b => if b then "True" else "False"
  | .int n => toString n
  | .str s => pyReprStr s
  | .list xs => "[" ++ String.intercalate ", " (pyReprList xs) ++ "]"
  | .dict kvs => "\x7b" ++ String.intercalate ", " (pyReprDict kvs) ++ "\x7d"

/-- `repr` of each element of a list. -/
def pyReprList : PyList → List String
  | .nil => []
  | .cons x tl => pyRepr x :: pyReprList tl

/-- `repr` of each `key: value` entry of a dict. -/
def pyReprDict : PyDict → List String
  | .nil => []
  | .cons k v tl => (pyReprStr k ++ ": " ++ pyRepr v) :: pyReprDict tl
end

/-- Python `str()` of a value (as interpolated by f-strings). -/
def pyStr : PyVal → String
  | .str s => s
  | v => pyRepr v

/-! ## The Prosemirror renderer (`extract_text_from_prosemirror`) -/

/-- Python `for x in v`: the element sequence of an iterable value, or the
`TypeError` raised for non-iterables.  Iterating a string yields its
characters as 1-character strings; iterating a dict yields its keys. -/
def pyIterElems : PyVal → Except String (List PyVal)
  | .list xs => .ok xs.toList
  | .str s => .ok (s.data.map (fun c => .str (String.singleton c)))
  | .dict kvs => .ok (kvs.keys.map PyVal.str)
  | .int _ => .error "TypeError: 'int' object is not iterable"
  | .bool _ => .error "TypeError: 'bool' object is not iterable"
  | .none => .error "TypeError: 'NoneType' object is not iterable"

/-- Python `v.get(key, default)`: only dicts have `.get`. -/
def pyGetD (v : PyVal) (key : String) (dflt : PyVal) : Except String PyVal :=
  match v with
  | .dict kvs => .ok (kvs.lookupD key dflt)
  | _ => .error "AttributeError: object has no attribute get"

/-- Python `s * v` for a string `s` (sequence repetition; bools count as
ints, negative counts give the empty string). -/
def pyMulStr (s : String) (v : PyVal) : Except String String :=
  match v with
  | .int n => .ok (String.join (List.replicate n.toNat s))
  | .bool b => .ok (if b then s else "")
  | _ => .error "TypeError: can't multiply sequence by non-int"

/-- Python `"".join(parts)`: every part must be a string. -/
def joinStr : List PyVal → Except String String
  | [] => .ok ""
  | .str s :: rest => (joinStr rest).map (fun r => s ++ r)
  | _ :: _ => .error "TypeError: sequence item: expected str instance"

/-- One iteration of the mark loop in the `text` branch: wrap the running
`text` value according to `mark` (`mark.get` raises on non-dict marks). -/
def applyMark (text mark : PyVal) : Except String PyVal :=
  match mark with
  | .dict mkvs =>
    let mt := mkvs.lookupD "type" (.str "")
    if pyEqStr mt "bold" then .ok (.str ("**" ++ pyStr text ++ "**"))
    else if pyEqStr mt "italic" then .ok (.str ("*" ++ pyStr text ++ "*"))
    else if pyEqStr mt "code" then .ok (.str ("`" ++ pyStr text ++ "`"))
    else if pyEqStr mt "link" then
      (pyGetD (mkvs.lookupD "attrs" (.dict .nil)) "href" (.str "")).map
        (fun href => .str ("[" ++ pyStr text ++ "](" ++ pyStr href ++ ")"))
    else .ok text
  | _ => .error "AttributeError: object has no attribute get"

/-- The whole mark loop, in mark-list order. -/
def applyMarks (ms : List PyVal) (t : PyVal) : Except String PyVal :=
  ms.foldlM applyMark t

/-- The `node_type == "text"` branch of the renderer: wrap `node["text"]`
by the node's marks, in order; children are never touched. -/
def renderTextNode (kvs : PyDict) : Except String PyVal :=
  Except.bind (pyIterElems (kvs.lookupD "marks" (.list .nil)))
    (fun ms => applyMarks ms (kvs.lookupD "text" (.str "")))

/-- The kind dispatch applied to the joined child text (the `elif` chain of
the source after the `parts` loop). -/
def renderBlock (kvs : PyDict) (nodeType : PyVal) (joined : String) :
    Except String PyVal :=
  if pyEqStr nodeType "heading" then
    Except.bind (pyGetD (kvs.lookupD "attrs" (.dict .nil)) "level" (.int 1))
      (fun level => Except.bind (pyMulStr "#" level)
        (fun pfx => .ok (.str ("\n" ++ pfx ++ " " ++ joined ++ "\n\n"))))
  else if pyEqStr nodeType "paragraph" then .ok (.str (joined ++ "\n\n"))
  else if pyEqStr nodeType "bulletList" then .ok (.str joined)
  else if pyEqStr nodeType "orderedList" then .ok (.str joined)
  else if pyEqStr nodeType "listItem" then
    -- lines = joined.strip().split("\n"); result = f"- {lines[0]}\n"; ...
    -- (split always returns a non-empty list, so lines[0] is headD)
    let ls := pySplitNl (pyStrip joined)
    .ok (.str (ls.tail.foldl
      (fun acc line => if pyStrip line ≠ "" then acc ++ "  " ++ line ++ "\n" else acc)
      ("- " ++ ls.headD "" ++ "\n")))
  else if pyEqStr nodeType "blockquote" then
    .ok (.str (joinSep "\n"
      ((pySplitNl (pyStrip joined)).map (fun line => "> " ++ line)) ++ "\n\n"))
  else if pyEqStr nodeType "codeBlock" then
    Except.bind (pyGetD (kvs.lookupD "attrs" (.dict .nil)) "language" (.str ""))
      (fun lang => .ok (.str ("\n```" ++ pyStr lang ++ "\n" ++ joined ++ "\n```\n\n")))
  else if pyEqStr nodeType "hardBreak" then .ok (.str "\n")
  else if pyEqStr nodeType "horizontalRule" then .ok (.str "\n---\n\n")
  else if pyEqStr nodeType "doc" then .ok (.str joined)
  else .ok (.str joined)

mutual
/-- `extract_text_from_prosemirror` (src/granolocal.py:126-187).  Non-dict
input returns `""`; a `text` node runs the mark loop; otherwise the children
of `node.get("content", [])` are rendered, joined and dispatched on kind.
Python exceptions (e.g. iterating a non-iterable `content`) are
`Except.error`. -/
def extract_text_from_prosemirror : PyVal → Except String PyVal
  | .dict kvs =>
    if pyEqStr (kvs.lookupD "type" (.str "")) "text" then renderTextNode kvs
    else Except.bind (contentJoinOfDict kvs)
      (fun joined => renderBlock kvs (kvs.lookupD "type" (.str "")) joined)
  | _ => .ok (.str "")

/-- The joined child text of a node: iterate `node.get("content", [])`,
render each child, and `"".join` the parts.  Structured as a walk over the
dict so the recursion stays structural; a missing `content` key means the
default `[]`, whose join is `""`. -/
def contentJoinOfDict : PyDict → Except String String
  | .nil => .ok ""
  | .cons k v tl => if k = "content" then contentJoin v else contentJoinOfDict tl

/-- Iterate a `content` value and join the rendered parts.  Iterating a
string yields 1-character strings and a dict yields its string keys; both
are non-dict values which render to `""`, so their join is `""` (inlined
here).  Non-iterables raise `TypeError`. -/
def contentJoin : PyVal → Except String String
  | .list xs => Except.bind (extractList xs) joinStr
  | .str _ => .ok ""
  | .dict _ => .ok ""
  | .int _ => .error "TypeError: 'int' object is not iterable"
  | .bool _ => .error "TypeError: 'bool' object is not iterable"
  | .none => .error "TypeError: 'NoneType' object is not iterable"

/-- Render each child in order (the `parts` loop). -/
def extractList : PyList → Except String (List PyVal)
  | .nil => .ok []
  | .cons x tl =>
    Except.bind (extract_text_from_prosemirror x)
      (fun r => Except.bind (extractList tl) (fun rs => .ok (r :: rs)))
end

/-- `contentJoinOfDict` is the content lookup followed by `contentJoin`. -/
theorem contentJoinOfDict_eq (kvs : PyDict) :
    contentJoinOfDict kvs = contentJoin (kvs.lookupD "content" (.list .nil)) := by
  match kvs with
  | .nil => rfl
  | .cons k v tl =>
    have ih := contentJoinOfDict_eq tl
    by_cases h : k = "content" <;>
      simp [contentJoinOfDict, PyDict.lookupD, PyDict.lookup, h, ih]

/-- Unfolding of the renderer on non-`text` dict nodes, phrased through the
`content` lookup. -/
theorem extract_dict_block (kvs : PyDict)
    (h : pyEqStr (kvs.lookupD "type" (.str "")) "text" = false) :
    extract_text_from_prosemirror (.dict kvs) =
      Except.bind (contentJoin (kvs.lookupD "content" (.list .nil)))
        (fun joined => renderBlock kvs (kvs.lookupD "type" (.str "")) joined) := by
  rw [extract_text_from_prosemirror, h, contentJoinOfDict_eq]
  simp

/-! ## Marks (claim-side model for C1) -/

/-- An inline mark as the spec describes it. -/
inductive Mark where
  | bold : Mark
  | italic : Mark
  | code : Mark
  | link (href : Option String) : Mark

/-- The Prosemirror JSON shape of a mark (a `link` without `href` carries no
`attrs` entry, so the renderer's defaults kick in). -/
def Mark.toPy : Mark → PyVal
  | .bold => pyDict [("type", .str "bold")]
  | .italic => pyDict [("type", .str "italic")]
  | .code => pyDict [("type", .str "code")]
  | .link Option.none => pyDict [("type", .str "link")]
  | .link (some h) => pyDict [("type", .str "link"), ("attrs", pyDict [("href", .str h)])]

/-- The wrapper each mark applies, per the spec's wording. -/
def Mark.wrap : Mark → String → String
  | .bold, x => "**" ++ x ++ "**"
  | .italic, x => "*" ++ x ++ "*"
  | .code, x => "`" ++ x ++ "`"
  | .link h, x => "[" ++ x ++ "](" ++ h.getD "" ++ ")"

/-- Apply the wrappers of a mark list in list order. -/
def wrapMarks (ms : List Mark) (x : String) : String :=
  ms.foldl (fun t m => m.wrap t) x

/-- A `text` node with the given text, marks, and an arbitrary extra
`content` field. -/
def textNode (x : String) (ms : List Mark) (extra : PyVal) : PyVal :=
  pyDict [("type", .str "text"), ("text", .str x),
          ("marks", pyList (ms.map Mark.toPy)), ("content", extra)]

theorem toList_toPyList (l : List PyVal) : (toPyList l).toList = l := by
  induction l with
  | nil => rfl
  | cons x xs ih => simp [toPyList, PyList.toList, ih]

theorem applyMark_toPy (m : Mark) (t : String) :
    applyMark (.str t) m.toPy = .ok (.str (m.wrap t)) := by
  cases m with
  | bold => rfl
  | italic => rfl
  | code => rfl
  | link h => cases h <;> rfl

theorem applyMarks_toPy (ms : List Mark) (t : String) :
    applyMarks (ms.map Mark.toPy) (.str t) = .ok (.str (wrapMarks ms t)) := by
  induction ms generalizing t with
  | nil => rfl
  | cons m ms ih =>
    simp [applyMarks, List.foldlM] at ih ⊢
    rw [applyMark_toPy]
    exact ih (m.wrap t)

theorem extract_textNode (x : String) (ms : List Mark) (c : PyVal) :
    extract_text_from_prosemirror (textNode x ms c) = .ok (.str (wrapMarks ms x)) := by
  rw [textNode, pyDict, toPyDict, toPyDict, toPyDict, toPyDict, toPyDict,
    extract_text_from_prosemirror]
  simp [PyDict.lookupD, PyDict.lookup, pyEqStr, renderTextNode, pyIterElems,
    toList_toPyList, pyList, applyMarks_toPy, Except.bind]

/-- C1: a `text` node renders as its own text wrapped by its marks applied in
mark-list order (bold `**x**`, italic `*x*`, code with backticks, link
`[x](href)` with `href` defaulting to `""`), ignoring any `content` field;
marks `[bold, link]` give `[**x**](href)` while `[link, bold]` give
`**[x](href)**`. -/
theorem C1_text_mark_order :
    (∀ (x : String) (ms : List Mark) (c : PyVal),
      extract_text_from_prosemirror (textNode x ms c) = .ok (.str (wrapMarks ms x))) ∧
    extract_text_from_prosemirror (textNode "x" [.bold, .link (some "href")] .none)
      = .ok (.str "[**x**](href)") ∧
    extract_text_from_prosemirror (textNode "x" [.link (some "href"), .bold] .none)
      = .ok (.str "**[x](href)**") :=
  ⟨extract_textNode, rfl, rfl⟩

/-! ## C4: blockquote rendering -/

/-- A minimal `text` node (no marks). -/
def tNode (t : String) : PyVal := pyDict [("type", .str "text"), ("text", .str t)]

/-- A paragraph node with one text child. -/
def paraNode (t : String) : PyVal :=
  pyDict [("type", .str "paragraph"), ("content", pyList [tNode t])]

/-- A blockquote whose joined child content is `"a\n\nb\n\n"` (two
paragraphs), so the trimmed content `"a\n\nb"` has an empty middle line. -/
def bqNode : PyVal :=
  pyDict [("type", .str "blockquote"), ("content", pyList [paraNode "a", paraNode "b"])]

/-- C4 counterexample: the blockquote renderer prefixes the empty middle line
too, producing `"> a\n> \n> b\n\n"`, not the `"> a\n\n> b\n\n"` that
prefixing only non-empty lines would give. -/
theorem C4_counterexample :
    extract_text_from_prosemirror bqNode = .ok (.str "> a\n> \n> b\n\n") ∧
    "> a\n> \n> b\n\n" ≠ "> a\n\n> b\n\n" :=
  ⟨rfl, by decide⟩

/-- C4 (amended): for every `blockquote` node, every line of the trimmed
joined child content — empty lines included — is prefixed with `"> "`, and a
blank line is appended. -/
theorem C4_blockquote_all_lines (kvs : PyDict) (j : String)
    (ht : kvs.lookupD "type" (.str "") = .str "blockquote")
    (hc : contentJoin (kvs.lookupD "content" (.list .nil)) = .ok j) :
    extract_text_from_prosemirror (.dict kvs) =
      .ok (.str (joinSep "\n"
        ((pySplitNl (pyStrip j)).map (fun line => "> " ++ line)) ++ "\n\n")) := by
  rw [extract_dict_block kvs (by rw [ht]; rfl), hc, ht]
  rfl

/-- C4 witness: the amended theorem applied to the concrete blockquote. -/
theorem C4_witness :
    extract_text_from_prosemirror bqNode = .ok (.str "> a\n> \n> b\n\n") :=
  C4_blockquote_all_lines
    (toPyDict [("type", .str "blockquote"),
               ("content", pyList [paraNode "a", paraNode "b"])])
    "a\n\nb\n\n" rfl rfl

/-! ## C5: robustness of the renderer -/

/-- A dict node whose `content` field is not iterable. -/
def badContentNode : PyVal := pyDict [("content", .int 5)]

/-- Did the computation succeed (no Python exception)? -/
def isOkB : Except String PyVal → Bool
  | .ok _ => true
  | .error _ => false

/-- C5 counterexample: a dict whose `content` holds an int makes the renderer
iterate a non-iterable, raising `TypeError` instead of degrading to a
string. -/
theorem C5_counterexample :
    isOkB (extract_text_from_prosemirror badContentNode) = false ∧
    extract_text_from_prosemirror badContentNode
      = .error "TypeError: 'int' object is not iterable" :=
  ⟨rfl, rfl⟩

/-- C5 (amended): a non-dict input returns the empty string, but a dict whose
fields hold values of unexpected types can raise: a non-iterable `content`
(e.g. an int) raises `TypeError` rather than degrading. -/
theorem C5_nonDict_degrades :
    (∀ v : PyVal, isDictB v = false →
      extract_text_from_prosemirror v = .ok (.str "")) ∧
    isOkB (extract_text_from_prosemirror badContentNode) = false := by
  refine ⟨fun v h => ?_, rfl⟩
  match v, h with
  | .none, _ => rfl
  | .bool _, _ => rfl
  | .int _, _ => rfl
  | .str _, _ => rfl
  | .list _, _ => rfl

/-- C5 witness: the amended theorem applied at the non-dict input `7`. -/
theorem C5_witness :
    isDictB (PyVal.int 7) = false ∧
    extract_text_from_prosemirror (PyVal.int 7) = .ok (.str "") :=
  ⟨rfl, C5_nonDict_degrades.1 (PyVal.int 7) rfl⟩

/-! ## C6: listItem rendering -/

/-- Concatenate a list of strings. -/
def catParts : List String → String
  | [] => ""
  | x :: xs => x ++ catParts xs

/-- The claim-side listItem layout: `"- "` before the first line of the
trimmed content, each later non-blank line indented by two spaces, blank
lines dropped. -/
def listItemWrap (j : String) : String :=
  let ls := pySplitNl (pyStrip j)
  "- " ++ ls.headD "" ++ "\n" ++
    catParts ((ls.tail.filter (fun l => !(pyStrip l == ""))).map
      (fun l => "  " ++ l ++ "\n"))

theorem foldl_indent (rest : List String) (acc : String) :
    rest.foldl
      (fun acc line => if pyStrip line ≠ "" then acc ++ "  " ++ line ++ "\n" else acc)
      acc
      = acc ++ catParts ((rest.filter (fun l => !(pyStrip l == ""))).map
          (fun l => "  " ++ l ++ "\n")) := by
  induction rest generalizing acc with
  | nil => simp [catParts]
  | cons x xs ih =>
    rw [List.foldl_cons, List.filter_cons]
    by_cases h : pyStrip x = ""
    · rw [if_neg (fun hne => hne h), if_neg (by simp [h])]
      exact ih acc
    · rw [if_pos h, if_pos (by simp [h]), ih]
      simp [catParts, String.append_assoc]

/-- A listItem whose joined child content is `"a\nb"` (text, hard break,
text). -/
def liNode : PyVal :=
  pyDict [("type", .str "listItem"),
          ("content", pyList [tNode "a", pyDict [("type", .str "hardBreak")], tNode "b"])]

/-- C6: a `listItem` node trims its joined content, renders the first line as
`"- "` + line + newline, indents each later non-blank line by two spaces, and
drops blank lines; in particular content `"a\nb"` renders as
`"- a\n  b\n"`. -/
theorem C6_listItem :
    (∀ (kvs : PyDict) (j : String),
      kvs.lookupD "type" (.str "") = .str "listItem" →
      contentJoin (kvs.lookupD "content" (.list .nil)) = .ok j →
      extract_text_from_prosemirror (.dict kvs) = .ok (.str (listItemWrap j))) ∧
    extract_text_from_prosemirror liNode = .ok (.str "- a\n  b\n") := by
  refine ⟨fun kvs j ht hc => ?_, rfl⟩
  rw [extract_dict_block kvs (by rw [ht]; rfl), hc, ht]
  show renderBlock kvs (.str "listItem") j = .ok (.str (listItemWrap j))
  have hbranch : renderBlock kvs (.str "listItem") j =
      .ok (.str ((pySplitNl (pyStrip j)).tail.foldl
        (fun acc line => if pyStrip line ≠ "" then acc ++ "  " ++ line ++ "\n" else acc)
        ("- " ++ (pySplitNl (pyStrip j)).headD "" ++ "\n"))) := rfl
  rw [hbranch, foldl_indent]
  simp [listItemWrap, String.append_assoc]

/-- C6 witness: the theorem applied to the concrete listItem node. -/
theorem C6_witness :
    extract_text_from_prosemirror liNode = .ok (.str "- a\n  b\n") :=
  C6_listItem.1
    (toPyDict [("type", .str "listItem"),
               ("content", pyList [tNode "a", pyDict [("type", .str "hardBreak")], tNode "b"])])
    "a\nb" rfl rfl

/-! ## The HTML → Markdown machine (`_HTMLToMarkdown`) -/

/-- Flush a pending newline run: under `re.sub(r"\n{3,}", "\n\n", _)` a
maximal run of `n` newlines becomes `min n 2` newlines. -/
def collapseRun (n : Nat) : List Char := List.replicate (min n 2) '\n'

/-- Scanner for the newline-collapse regex; `n` counts the newline run in
progress. -/
def collapseNlAux : Nat → List Char → List Char
  | n, [] => collapseRun n
  | n, c :: cs =>
    if c = '\n' then collapseNlAux (n + 1) cs
    else collapseRun n ++ c :: collapseNlAux 0 cs

/-- `re.sub(r"\n{3,}", "\n\n", text)`. -/
def collapseNl (s : String) : String := ⟨collapseNlAux 0 s.data⟩

/-- A tokenizer event.  Attribute values are `Option String` as in Python's
`HTMLParser` (a valueless attribute carries `None`). -/
inductive TagEvent where
  | start (tag : String) (attrs : List (String × Option String)) : TagEvent
  | endTag (tag : String) : TagEvent
  | data (s : String) : TagEvent

/-- The machine state: the output fragment buffer `self._parts` and the tag
stack `self._tag_stack`.  The stack is kept head-first: the list head is the
Python list's last element (`[-1]`). -/
structure MState where
  parts : List String
  tagStack : List String

/-- `dict(attrs).get("href", "")`, as interpolated into `f"a:{href}"`: the
last binding of a duplicated attribute wins, a valueless attribute
interpolates as `"None"`, a missing one as the default `""`. -/
def attrsHref (attrs : List (String × Option String)) : String :=
  match attrs.reverse.find? (fun a => a.1 == "href") with
  | Option.none => ""
  | some (_, Option.none) => "None"
  | some (_, some v) => v

/-- The six heading tags. -/
def headingTags : List String := ["h1", "h2", "h3", "h4", "h5", "h6"]

/-- `int(tag[1])` for a heading tag. -/
def headingLevel (tag : String) : Nat :=
  match tag.data with
  | _ :: c :: _ => c.toNat - 48
  | _ => 0

/-- `"#" * level`. -/
def hashes (n : Nat) : String := ⟨List.replicate n '#'⟩

/-- `"  " * depth` (a negative Python depth yields `""`, as does `Nat`
subtraction in the caller). -/
def indentSpaces (depth : Nat) : String := catParts (List.replicate depth "  ")

/-- `_HTMLToMarkdown.handle_starttag` (src/granolocal.py:328-352). -/
def handle_starttag (tag : String) (attrs : List (String × Option String))
    (st : MState) : MState :=
  let stack := tag :: st.tagStack
  if headingTags.contains tag then
    { parts := st.parts ++ ["\n" ++ hashes (headingLevel tag) ++ " "], tagStack := stack }
  else if tag = "li" then
    -- depth counts ul/ol entries on the stack after the push, minus one
    let depth := (stack.countP (fun t => t == "ul" || t == "ol")) - 1
    { parts := st.parts ++ [indentSpaces depth ++ "- "], tagStack := stack }
  else if tag = "p" then { parts := st.parts, tagStack := stack }
  else if tag = "br" then { parts := st.parts ++ ["\n"], tagStack := stack }
  else if tag = "a" then
    -- the just-pushed entry is replaced by the synthetic "a:<href>" entry
    { parts := st.parts ++ ["["], tagStack := ("a:" ++ attrsHref attrs) :: st.tagStack }
  else if tag = "strong" ∨ tag = "b" then { parts := st.parts ++ ["**"], tagStack := stack }
  else if tag = "em" ∨ tag = "i" then { parts := st.parts ++ ["*"], tagStack := stack }
  else if tag = "code" then { parts := st.parts ++ ["`"], tagStack := stack }
  else if tag = "blockquote" then { parts := st.parts ++ ["> "], tagStack := stack }
  else { parts := st.parts, tagStack := stack }

/-- `entry.startswith("a:")` (structural prefix test). -/
def strStartsWith (s pre : String) : Bool := pre.data.isPrefixOf s.data

/-- `entry.split(":")[0]`. -/
def beforeColon (e : String) : String := ⟨e.data.takeWhile (fun c => c != ':')⟩

/-- `entry.split(":", 1)[1]` (used only under the `startswith("a:")`
guard, so a colon is present). -/
def afterColon (e : String) : String := ⟨(e.data.dropWhile (fun c => c != ':')).drop 1⟩

/-- The stack-pop phase of `handle_endtag`: scan from the top for the first
entry whose tag identity matches and remove it (no match: unchanged). -/
def popMatching (tag : String) : List String → List String
  | [] => []
  | e :: rest => if beforeColon e = tag then rest else e :: popMatching tag rest

/-- `_HTMLToMarkdown.handle_endtag` (src/granolocal.py:354-386).  The `a`
case consults only the top of the stack: a matching top emits
`"](href)"` and returns early; otherwise `"]"` is emitted and the generic
pop phase runs. -/
def handle_endtag (tag : String) (st : MState) : MState :=
  if headingTags.contains tag then
    { parts := st.parts ++ ["\n\n"], tagStack := popMatching tag st.tagStack }
  else if tag = "li" then
    { parts := st.parts ++ ["\n"], tagStack := popMatching tag st.tagStack }
  else if tag = "p" then
    { parts := st.parts ++ ["\n\n"], tagStack := popMatching tag st.tagStack }
  else if tag = "ul" ∨ tag = "ol" then
    { parts := st.parts ++ ["\n"], tagStack := popMatching tag st.tagStack }
  else if tag = "a" then
    match st.tagStack with
    | e :: rest =>
      if strStartsWith e "a:" then
        { parts := st.parts ++ ["](" ++ afterColon e ++ ")"], tagStack := rest }
      else { parts := st.parts ++ ["]"], tagStack := popMatching tag (e :: rest) }
    | [] => { parts := st.parts ++ ["]"], tagStack := [] }
  else if tag = "strong" ∨ tag = "b" then
    { parts := st.parts ++ ["**"], tagStack := popMatching tag st.tagStack }
  else if tag = "em" ∨ tag = "i" then
    { parts := st.parts ++ ["*"], tagStack := popMatching tag st.tagStack }
  else if tag = "code" then
    { parts := st.parts ++ ["`"], tagStack := popMatching tag st.tagStack }
  else if tag = "blockquote" then
    { parts := st.parts ++ ["\n"], tagStack := popMatching tag st.tagStack }
  else { parts := st.parts, tagStack := popMatching tag st.tagStack }

/-- `_HTMLToMarkdown.handle_data`. -/
def handle_data (d : String) (st : MState) : MState :=
  { st with parts := st.parts ++ [d] }

/-- `_HTMLToMarkdown.get_markdown`: join the parts, collapse 3+ newlines to
2, and strip. -/
def get_markdown (st : MState) : String := pyStrip (collapseNl (catParts st.parts))

/-- The fresh machine of `html_to_markdown`. -/
def initMState : MState := ⟨[], []⟩

/-- Dispatch one event to its handler. -/
def runEvent (st : MState) : TagEvent → MState
  | .start t a => handle_starttag t a st
  | .endTag t => handle_endtag t st
  | .data d => handle_data d st

/-- Feed a whole event stream. -/
def runEvents (evs : List TagEvent) (st : MState) : MState := evs.foldl runEvent st

/-! ## Tokenizer (modelled standard facility)

The source drives `_HTMLToMarkdown` through Python's
`html.parser.HTMLParser`; per the spec this tokenizer is "a standard HTML
tokenizing facility and is not part of this core's design burden" (§6), and
the machine consumes the TagEvent stream of §3.  The model below reproduces
that tokenizer's behaviour on the simple fragments used by the claims:
lowercase tags, optional double-quoted attributes, no entities, comments or
self-closing syntax. -/

/-- Parse the attribute portion of a start tag: a sequence of
`name="value"` or bare `name` items. -/
def parseAttrsAux : Nat → List Char → List (String × Option String)
  | 0, _ => []
  | fuel + 1, cs =>
    let cs := cs.dropWhile (fun c => c == ' ')
    match cs with
    | [] => []
    | _ =>
      let name := cs.takeWhile (fun c => c != '=' && c != ' ')
      let rest := cs.dropWhile (fun c => c != '=' && c != ' ')
      match rest with
      | '=' :: '"' :: r2 =>
        (⟨name⟩, some ⟨r2.takeWhile (fun c => c != '"')⟩) ::
          parseAttrsAux fuel ((r2.dropWhile (fun c => c != '"')).drop 1)
      | _ => (⟨name⟩, Option.none) :: parseAttrsAux fuel rest

/-- Tokenize a character stream into tag events (fuel-driven; the fuel is
the input length, and every step consumes at least one character). -/
def tokenizeAux : Nat → List Char → List TagEvent
  | 0, _ => []
  | _ + 1, [] => []
  | fuel + 1, '<' :: '/' :: rest =>
    .endTag ⟨rest.takeWhile (fun c => c != '>')⟩ ::
      tokenizeAux fuel ((rest.dropWhile (fun c => c != '>')).drop 1)
  | fuel + 1, '<' :: rest =>
    let inside := rest.takeWhile (fun c => c != '>')
    .start ⟨inside.takeWhile (fun c => c != ' ')⟩
        (parseAttrsAux inside.length (inside.dropWhile (fun c => c != ' '))) ::
      tokenizeAux fuel ((rest.dropWhile (fun c => c != '>')).drop 1)
  | fuel + 1, cs =>
    .data ⟨cs.takeWhile (fun c => c != '<')⟩ ::
      tokenizeAux fuel (cs.dropWhile (fun c => c != '<'))

/-- Tokenize an HTML fragment. -/
def tokenizeHtml (s : String) : List TagEvent :=
  tokenizeAux (s.data.length + 1) s.data

/-- `html_to_markdown` (src/granolocal.py:398-402): feed the fragment
through a fresh machine and read off the Markdown. -/
def html_to_markdown (html : String) : String :=
  get_markdown (runEvents (tokenizeHtml html) initMState)

/-- C2 counterexample: the round trip of
`<h2>Title</h2><p>Hello <strong>world</strong></p>` does not keep the
trailing blank line — `get_markdown` strips it. -/
theorem C2_counterexample :
    html_to_markdown "<h2>Title</h2><p>Hello <strong>world</strong></p>"
      ≠ "## Title\n\nHello **world**\n\n" := by decide

/-- C2 (amended): tokenizing `<h2>Title</h2><p>Hello <strong>world</strong></p>`,
emitting per tag rules, collapsing 3+ newlines to 2 and trimming yields
exactly `"## Title\n\nHello **world**"` (the final trim removes the trailing
blank line). -/
theorem C2_h2_paragraph :
    html_to_markdown "<h2>Title</h2><p>Hello <strong>world</strong></p>"
      = "## Title\n\nHello **world**" := rfl

/-- C7 counterexample: for `<a href="http://x"><p>t</a>` the anchor entry
`"a:http://x"` is still on the tag stack when the close-`a` event arrives
(below the `p` entry), yet the machine emits `]` alone — it consults only
the top of the stack, not the whole stack. -/
theorem C7_counterexample :
    (runEvents (tokenizeHtml "<a href=\"http://x\"><p>t") initMState).tagStack.any
        (fun e => strStartsWith e "a:") = true ∧
    html_to_markdown "<a href=\"http://x\"><p>t</a>" = "[t]" := ⟨rfl, rfl⟩

/-- C7 (amended): `<a href="http://x">t</a>` yields `[t](http://x)` and an
anchor with no href yields `[t]()`; on a close-`a` event the machine emits
`"](" ++ href ++ ")"` exactly when the synthetic anchor entry is at the top
of the tag stack, and `"]"` alone otherwise (even if an anchor entry sits
deeper in the stack). -/
theorem C7_anchor :
    html_to_markdown "<a href=\"http://x\">t</a>" = "[t](http://x)" ∧
    html_to_markdown "<a>t</a>" = "[t]()" ∧
    (∀ (st : MState) (e : String) (rest : List String),
      st.tagStack = e :: rest → strStartsWith e "a:" = true →
      (handle_endtag "a" st).parts = st.parts ++ ["](" ++ afterColon e ++ ")"]) ∧
    (∀ st : MState,
      (st.tagStack.head?.map (fun e => strStartsWith e "a:")).getD false = false →
      (handle_endtag "a" st).parts = st.parts ++ ["]"]) := by
  have hunf : ∀ st : MState, handle_endtag "a" st =
      (match st.tagStack with
       | e :: rest =>
         if strStartsWith e "a:" then
           { parts := st.parts ++ ["](" ++ afterColon e ++ ")"], tagStack := rest }
         else { parts := st.parts ++ ["]"], tagStack := popMatching "a" (e :: rest) }
       | [] => { parts := st.parts ++ ["]"], tagStack := [] }) :=
    fun st => rfl
  refine ⟨rfl, rfl, fun st e rest hst he => ?_, fun st h => ?_⟩
  · rw [hunf st, hst]
    simp [he]
  · rw [hunf st]
    cases hst : st.tagStack with
    | nil => rfl
    | cons e rest =>
      rw [hst] at h
      have h' : strStartsWith e "a:" = false := by simpa using h
      simp [h']

/-- C7 witness: the top-of-stack rule applied at a concrete state. -/
theorem C7_witness :
    (handle_endtag "a" ⟨["[", "t"], ["a:u"]⟩).parts = ["[", "t", "](u)"] :=
  C7_anchor.2.2.1 ⟨["[", "t"], ["a:u"]⟩ "a:u" [] rfl rfl

/-! ## C9: idempotence of the post-processing -/

/-- Scanner recognising "no run of three or more newlines", with `k`
newlines already seen immediately before the current position. -/
def noTriAux : Nat → List Char → Bool
  | _, [] => true
  | k, c :: cs =>
    if c = '\n' then (if 2 ≤ k then false else noTriAux (k + 1) cs)
    else noTriAux 0 cs

theorem noTriAux_cons_nl (k : Nat) (cs : List Char) :
    noTriAux k ('\n' :: cs) = if 2 ≤ k then false else noTriAux (k + 1) cs := rfl

theorem noTriAux_cons_ne (k : Nat) (c : Char) (cs : List Char) (hc : ¬c = '\n') :
    noTriAux k (c :: cs) = noTriAux 0 cs := by
  simp [noTriAux, hc]

theorem collapseNlAux_cons_nl (n : Nat) (cs : List Char) :
    collapseNlAux n ('\n' :: cs) = collapseNlAux (n + 1) cs := rfl

theorem collapseNlAux_cons_ne (n : Nat) (c : Char) (cs : List Char) (hc : ¬c = '\n') :
    collapseNlAux n (c :: cs) = collapseRun n ++ c :: collapseNlAux 0 cs := by
  simp [collapseNlAux, hc]

theorem noTriAux_mono (l : List Char) :
    ∀ k j, j ≤ k → noTriAux k l = true → noTriAux j l = true := by
  induction l with
  | nil => intro k j _ _; rfl
  | cons c cs ih =>
    intro k j hj h
    by_cases hc : c = '\n'
    · subst hc
      rw [noTriAux_cons_nl] at h ⊢
      by_cases h2 : 2 ≤ k
      · rw [if_pos h2] at h; exact absurd h (by simp)
      · rw [if_neg h2] at h
        rw [if_neg (fun hj2 => h2 (le_trans hj2 hj))]
        exact ih (k + 1) (j + 1) (Nat.succ_le_succ hj) h
    · rw [noTriAux_cons_ne _ _ _ hc] at h ⊢
      exact h

theorem noTriAux_replicate (k : Nat) (hk : k ≤ 2) (rest : List Char) :
    noTriAux 0 (List.replicate k '\n' ++ rest) = noTriAux k rest := by
  match k, hk with
  | 0, _ => rfl
  | 1, _ => rfl
  | 2, _ => rfl

theorem noTriAux_collapse (l : List Char) :
    ∀ n, noTriAux 0 (collapseNlAux n l) = true := by
  induction l with
  | nil =>
    intro n
    show noTriAux 0 (List.replicate (min n 2) '\n') = true
    rw [← List.append_nil (List.replicate (min n 2) '\n'),
      noTriAux_replicate _ (min_le_right _ _)]
    rfl
  | cons c cs ih =>
    intro n
    by_cases hc : c = '\n'
    · subst hc; rw [collapseNlAux_cons_nl]; exact ih (n + 1)
    · rw [collapseNlAux_cons_ne _ _ _ hc]
      show noTriAux 0 (List.replicate (min n 2) '\n' ++ c :: collapseNlAux 0 cs) = true
      rw [noTriAux_replicate _ (min_le_right _ _), noTriAux_cons_ne _ _ _ hc]
      exact ih 0

theorem collapse_of_noTri (l : List Char) :
    ∀ k, k ≤ 2 → noTriAux k l = true →
      collapseNlAux k l = List.replicate k '\n' ++ l := by
  induction l with
  | nil =>
    intro k hk _
    show collapseRun k = _
    rw [collapseRun, Nat.min_eq_left hk, List.append_nil]
  | cons c cs ih =>
    intro k hk h
    by_cases hc : c = '\n'
    · subst hc
      rw [noTriAux_cons_nl] at h
      by_cases h2 : 2 ≤ k
      · rw [if_pos h2] at h; exact absurd h (by simp)
      · rw [if_neg h2] at h
        rw [collapseNlAux_cons_nl, ih (k + 1) (by omega) h,
          List.replicate_succ' (n := k), List.append_assoc]
        rfl
    · rw [collapseNlAux_cons_ne _ _ _ hc]
      rw [noTriAux_cons_ne _ _ _ hc] at h
      rw [ih 0 (by omega) h, collapseRun, Nat.min_eq_left hk]
      rfl

theorem noTri_tail (c : Char) (cs : List Char) (h : noTriAux 0 (c :: cs) = true) :
    noTriAux 0 cs = true := by
  by_cases hc : c = '\n'
  · subst hc
    rw [noTriAux_cons_nl, if_neg (by omega)] at h
    exact noTriAux_mono cs 1 0 (by omega) h
  · rw [noTriAux_cons_ne _ _ _ hc] at h; exact h

theorem noTri_dropWhile (p : Char → Bool) (l : List Char)
    (h : noTriAux 0 l = true) : noTriAux 0 (l.dropWhile p) = true := by
  induction l with
  | nil => exact h
  | cons c cs ih =>
    rw [List.dropWhile_cons]
    by_cases hp : p c = true
    · rw [if_pos hp]; exact ih (noTri_tail c cs h)
    · rw [if_neg hp]; exact h

theorem noTriAux_dropTrail (p : Char → Bool) (l : List Char) :
    ∀ k, k ≤ 2 → noTriAux k l = true → noTriAux k (dropTrailWhile p l) = true := by
  induction l with
  | nil => intro k _ h; exact h
  | cons c cs ih =>
    intro k hk h
    have hd : dropTrailWhile p (c :: cs) =
        match dropTrailWhile p cs with
        | [] => if p c then [] else [c]
        | r => c :: r := rfl
    rw [hd]
    cases hr : dropTrailWhile p cs with
    | nil =>
      by_cases hp : p c = true
      · rw [if_pos hp]; rfl
      · simp only [hp, Bool.false_eq_true, if_false]
        by_cases hc : c = '\n'
        · subst hc
          rw [noTriAux_cons_nl] at h ⊢
          by_cases h2 : 2 ≤ k
          · rw [if_pos h2] at h; exact absurd h (by simp)
          · rw [if_neg h2]; rfl
        · rw [noTriAux_cons_ne _ _ _ hc]; rfl
    | cons r0 rs =>
      by_cases hc : c = '\n'
      · subst hc
        rw [noTriAux_cons_nl] at h ⊢
        by_cases h2 : 2 ≤ k
        · rw [if_pos h2] at h; exact absurd h (by simp)
        · rw [if_neg h2] at h ⊢
          have := ih (k + 1) (by omega) h
          rw [hr] at this; exact this
      · rw [noTriAux_cons_ne _ _ _ hc] at h ⊢
        have := ih 0 (by omega) h
        rw [hr] at this; exact this

theorem dropWhile_head_not (p : Char → Bool) (l : List Char) :
    ∀ c cs, l.dropWhile p = c :: cs → p c = false := by
  induction l with
  | nil => intro c cs h; exact absurd h (by simp)
  | cons x xs ih =>
    intro c cs h
    rw [List.dropWhile_cons] at h
    by_cases hp : p x = true
    · rw [if_pos hp] at h; exact ih c cs h
    · rw [if_neg hp] at h
      cases h
      exact Bool.not_eq_true _ ▸ (by simpa using hp)

theorem dropTrail_head (p : Char → Bool) (c : Char) (cs : List Char) :
    dropTrailWhile p (c :: cs) = [] ∨
      ∃ r, dropTrailWhile p (c :: cs) = c :: r := by
  have hd : dropTrailWhile p (c :: cs) =
      match dropTrailWhile p cs with
      | [] => if p c then [] else [c]
      | r => c :: r := rfl
  rw [hd]
  cases dropTrailWhile p cs with
  | nil =>
    by_cases hp : p c = true
    · left; rw [if_pos hp]
    · right; exact ⟨[], by rw [if_neg hp]⟩
  | cons r0 rs => right; exact ⟨r0 :: rs, rfl⟩

theorem dropTrail_getLast (p : Char → Bool) (l : List Char) :
    ∀ c, (dropTrailWhile p l).getLast? = some c → p c = false := by
  induction l with
  | nil => intro c h; exact absurd h (by simp [dropTrailWhile])
  | cons x xs ih =>
    intro c h
    have hd : dropTrailWhile p (x :: xs) =
        match dropTrailWhile p xs with
        | [] => if p x then [] else [x]
        | r => x :: r := rfl
    rw [hd] at h
    cases hr : dropTrailWhile p xs with
    | nil =>
      rw [hr] at h
      by_cases hp : p x = true
      · rw [if_pos hp] at h; exact absurd h (by simp)
      · rw [if_neg hp] at h
        simp only [List.getLast?_singleton, Option.some_inj] at h
        subst h; simpa using hp
    | cons r0 rs =>
      rw [hr] at h
      rw [List.getLast?_cons_cons] at h
      exact ih c (hr ▸ h)

theorem dropTrail_cons (p : Char → Bool) (c : Char) (cs : List Char) :
    dropTrailWhile p (c :: cs) =
      match dropTrailWhile p cs with
      | [] => if p c then [] else [c]
      | r => c :: r := rfl

theorem dropTrail_append_last (p : Char → Bool) (ys : List Char) (c : Char) :
    dropTrailWhile p (ys ++ [c]) =
      if p c then dropTrailWhile p ys else ys ++ [c] := by
  induction ys with
  | nil =>
    show (match dropTrailWhile p ([] : List Char) with
      | [] => if p c then [] else [c]
      | r => c :: r) = _
    rw [show dropTrailWhile p ([] : List Char) = [] from rfl]
    by_cases hp : p c = true
    · rw [if_pos hp, if_pos hp]
    · rw [if_neg hp, if_neg hp]; rfl
  | cons y ys ih =>
    rw [List.cons_append, dropTrail_cons, ih]
    by_cases hp : p c = true
    · rw [if_pos hp, if_pos hp, ← dropTrail_cons]
    · rw [if_neg hp, if_neg hp]
      cases ys <;> rfl

theorem dropTrail_of_last_not (p : Char → Bool) (l : List Char)
    (h : ∀ c, l.getLast? = some c → p c = false) : dropTrailWhile p l = l := by
  rcases List.eq_nil_or_concat l with rfl | ⟨ys, c, rfl⟩
  · rfl
  · have hc : p c = false :=
      h c (by rw [List.concat_eq_append, List.getLast?_concat])
    rw [List.concat_eq_append, dropTrail_append_last, if_neg (by simp [hc])]

theorem dropWhile_of_head_not (p : Char → Bool) (l : List Char)
    (h : ∀ c, l.head? = some c → p c = false) : l.dropWhile p = l := by
  cases l with
  | nil => rfl
  | cons x xs =>
    rw [List.dropWhile_cons, if_neg]
    simp [h x rfl]

theorem pyStripL_idem (l : List Char) : pyStripL (pyStripL l) = pyStripL l := by
  show pyStripL (dropTrailWhile isPyWs (l.dropWhile isPyWs)) = _
  have hhead : ∀ c, (dropTrailWhile isPyWs (l.dropWhile isPyWs)).head? = some c →
      isPyWs c = false := by
    intro c hc
    cases hD : l.dropWhile isPyWs with
    | nil => rw [hD] at hc; simp [dropTrailWhile] at hc
    | cons d ds =>
      rw [hD] at hc
      rcases dropTrail_head isPyWs d ds with hnil | ⟨r, hr⟩
      · rw [hnil] at hc; simp at hc
      · rw [hr] at hc
        simp only [List.head?_cons, Option.some_inj] at hc
        subst hc
        exact dropWhile_head_not isPyWs l d ds hD
  rw [pyStripL, dropWhile_of_head_not _ _ hhead,
    dropTrail_of_last_not _ _ (dropTrail_getLast isPyWs _)]
  rfl

theorem postProcess_idem (l : List Char) :
    pyStripL (collapseNlAux 0 (pyStripL (collapseNlAux 0 l))) =
      pyStripL (collapseNlAux 0 l) := by
  have h1 : noTriAux 0 (collapseNlAux 0 l) = true := noTriAux_collapse l 0
  have h2 : noTriAux 0 (pyStripL (collapseNlAux 0 l)) = true := by
    rw [pyStripL]
    exact noTriAux_dropTrail _ _ 0 (by omega) (noTri_dropWhile _ _ h1)
  have h3 : collapseNlAux 0 (pyStripL (collapseNlAux 0 l)) =
      pyStripL (collapseNlAux 0 l) := by
    have := collapse_of_noTri _ 0 (by omega) h2
    simpa using this
  rw [h3]
  exact pyStripL_idem _

/-- The machine fed one plain `data` event (tag-free text), read back via
`get_markdown`. -/
def markdownOfPlainData (t : String) : String :=
  get_markdown (runEvents [TagEvent.data t] initMState)

theorem markdownOfPlainData_eq (t : String) :
    markdownOfPlainData t = pyStrip (collapseNl t) := by
  show pyStrip (collapseNl (catParts [t])) = pyStrip (collapseNl t)
  rw [show catParts [t] = t ++ "" from rfl, String.append_empty]

/-- C9: the machine's post-processing (collapse runs of 3+ newlines to 2,
then strip) is idempotent — feeding the machine's own Markdown output back
through the machine as a plain data event returns it unchanged. -/
theorem C9_postprocess_idempotent (t : String) :
    markdownOfPlainData (markdownOfPlainData t) = markdownOfPlainData t := by
  rw [markdownOfPlainData_eq, markdownOfPlainData_eq]
  show String.mk (pyStripL (collapseNlAux 0 (pyStripL (collapseNlAux 0 t.data)))) =
    String.mk (pyStripL (collapseNlAux 0 t.data))
  exact congrArg String.mk (postProcess_idem t.data)

/-! ## `_decode_js_string` (C8) -/

/-- Value of a hex digit (`int(c, 16)` on one character), accepting both
cases. -/
def hexVal (c : Char) : Option Nat :=
  if '0' ≤ c ∧ c ≤ '9' then some (c.toNat - 48)
  else if 'a' ≤ c ∧ c ≤ 'f' then some (c.toNat - 87)
  else if 'A' ≤ c ∧ c ≤ 'F' then some (c.toNat - 55)
  else Option.none

/-- The `simple` escape dictionary of `_decode_js_string`: the class
`[ntr\\\"/]` of the regex. -/
def simpleEsc (c : Char) : Option Char :=
  if c = 'n' then some '\n'
  else if c = 't' then some '\t'
  else if c = 'r' then some '\r'
  else if c = '\\' then some '\\'
  else if c = '"' then some '"'
  else if c = '/' then some '/'
  else Option.none

/-- The scan of `re.sub(r"\\u[0-9a-fA-F]{4}|\\[ntr\\\"/]", replace, s)`:
left to right and non-overlapping, at each position first the `\uXXXX`
branch, then the one-character escape branch.  Since every match starts with
a backslash, an unmatched `\u`/`\e` pair is copied whole: neither the `u`
nor a non-class `e` can begin a later match.  (Python's `chr` admits lone
surrogates, which `Char.ofNat` cannot represent; no claim touches them.) -/
def decodeJsAux : List Char → List Char
  | [] => []
  | '\\' :: 'u' :: a :: b :: c1 :: d1 :: rest =>
    match hexVal a, hexVal b, hexVal c1, hexVal d1 with
    | some va, some vb, some vc, some vd =>
      Char.ofNat (va * 4096 + vb * 256 + vc * 16 + vd) :: decodeJsAux rest
    | _, _, _, _ => '\\' :: 'u' :: decodeJsAux (a :: b :: c1 :: d1 :: rest)
  | '\\' :: e :: rest =>
    match simpleEsc e with
    | some r => r :: decodeJsAux rest
    | Option.none => '\\' :: e :: decodeJsAux rest
  | '\\' :: [] => ['\\']
  | c :: rest => c :: decodeJsAux rest

/-- `_decode_js_string` (src/granolocal.py:405-415). -/
def decode_js_string (s : String) : String := ⟨decodeJsAux s.data⟩

theorem decodeJsAux_cons_ne (c : Char) (cs : List Char) (hc : ¬c = '\\') :
    decodeJsAux (c :: cs) = c :: decodeJsAux cs := by
  rw [decodeJsAux.eq_def]
  split
  all_goals first | rfl | simp_all

theorem decodeJsAux_no_backslash (l : List Char) (h : ∀ c ∈ l, c ≠ '\\') :
    decodeJsAux l = l := by
  induction l with
  | nil => rfl
  | cons c cs ih =>
    rw [decodeJsAux_cons_ne c cs (h c (by simp)),
      ih (fun c hc => h c (List.mem_cons_of_mem _ hc))]

/-- C8: `_decode_js_string` turns each escape `\n`, `\t`, `\r`, `\\`, `\"`,
`\/` into its literal character and each `\uXXXX` (four hex digits) into the
corresponding code point, scanning left to right without touching characters
outside a recognized escape; in particular `é` decodes to `é` and a
literal `é` passes through unchanged. -/
theorem C8_escape_decoding :
    decode_js_string "\\u00e9" = "é" ∧
    decode_js_string "é" = "é" ∧
    (∀ s : String, (∀ c ∈ s.data, c ≠ '\\') → decode_js_string s = s) ∧
    (∀ t, decodeJsAux ('\\' :: 'n' :: t) = '\n' :: decodeJsAux t) ∧
    (∀ t, decodeJsAux ('\\' :: 't' :: t) = '\t' :: decodeJsAux t) ∧
    (∀ t, decodeJsAux ('\\' :: 'r' :: t) = '\r' :: decodeJsAux t) ∧
    (∀ t, decodeJsAux ('\\' :: '\\' :: t) = '\\' :: decodeJsAux t) ∧
    (∀ t, decodeJsAux ('\\' :: '"' :: t) = '"' :: decodeJsAux t) ∧
    (∀ t, decodeJsAux ('\\' :: '/' :: t) = '/' :: decodeJsAux t) ∧
    (∀ (a b c d : Char) (t : List Char) (va vb vc vd : Nat),
      hexVal a = some va → hexVal b = some vb →
      hexVal c = some vc → hexVal d = some vd →
      decodeJsAux ('\\' :: 'u' :: a :: b :: c :: d :: t) =
        Char.ofNat (va * 4096 + vb * 256 + vc * 16 + vd) :: decodeJsAux t) ∧
    (∀ (c : Char) (t : List Char), c ≠ '\\' →
      decodeJsAux (c :: t) = c :: decodeJsAux t) := by
  refine ⟨rfl, rfl, ?_, fun t => rfl, fun t => rfl, fun t => rfl, fun t => rfl,
    fun t => rfl, fun t => rfl, ?_, decodeJsAux_cons_ne⟩
  · intro s h
    show String.mk (decodeJsAux s.data) = s
    rw [decodeJsAux_no_backslash s.data h]
  · intro a b c d t va vb vc vd ha hb hc hd
    have hstep : decodeJsAux ('\\' :: 'u' :: a :: b :: c :: d :: t) =
        match hexVal a, hexVal b, hexVal c, hexVal d with
        | some va, some vb, some vc, some vd =>
          Char.ofNat (va * 4096 + vb * 256 + vc * 16 + vd) :: decodeJsAux t
        | _, _, _, _ => '\\' :: 'u' :: decodeJsAux (a :: b :: c :: d :: t) := rfl
    rw [hstep, ha, hb, hc, hd]

/-- C8 witness: the decoder applied via the theorem at concrete inputs. -/
theorem C8_witness :
    decode_js_string "abc" = "abc" ∧
    decodeJsAux ('\\' :: 'u' :: '0' :: '0' :: 'e' :: '9' :: []) = ['é'] :=
  ⟨C8_escape_decoding.2.2.1 "abc" (by decide),
   (C8_escape_decoding.2.2.2.2.2.2.2.2.2.1 '0' '0' 'e' '9' [] 0 0 14 9
     rfl rfl rfl rfl).trans rfl⟩

/-! ## The shared-note payload scan (C3)

`fetch_shared_note` (src/granolocal.py:418-507) is network I/O around a pure
scan of the extracted `self.__next_f.push` payload strings.  That scan is
embedded as `fetch_shared_note_scan` over the list of raw payload strings.
`json.loads` is modelled for the value subset reachable here: objects,
arrays, strings with the standard escapes, integers, booleans, null (floats
and surrogate pairs are not needed by any claim). -/

/-- JSON inter-token whitespace. -/
def jsonWs (c : Char) : Bool := c = ' ' || c = '\t' || c = '\n' || c = '\r'

/-- Accumulate a digit run. -/
def jNatAux : List Char → Nat → (Nat × List Char)
  | c :: rest, acc =>
    if c.isDigit then jNatAux rest (acc * 10 + (c.toNat - 48)) else (acc, c :: rest)
  | [], acc => (acc, [])

/-- Parse a non-empty digit run. -/
def jNat : List Char → Option (Nat × List Char)
  | c :: rest => if c.isDigit then some (jNatAux rest (c.toNat - 48)) else Option.none
  | [] => Option.none

mutual
/-- Parse one JSON value (fuel-driven recursive descent). -/
def jVal : Nat → List Char → Option (PyVal × List Char)
  | 0, _ => Option.none
  | fuel + 1, cs =>
    match cs.dropWhile jsonWs with
    | '"' :: rest => (jStr fuel rest).map (fun p => (.str ⟨p.1⟩, p.2))
    | '[' :: rest =>
      match rest.dropWhile jsonWs with
      | ']' :: r2 => some (.list .nil, r2)
      | r2 => (jItems fuel r2).map (fun p => (.list p.1, p.2))
    | '{' :: rest =>
      match rest.dropWhile jsonWs with
      | '}' :: r2 => some (.dict .nil, r2)
      | r2 => (jFields fuel r2).map (fun p => (.dict p.1, p.2))
    | 't' :: 'r' :: 'u' :: 'e' :: r => some (.bool true, r)
    | 'f' :: 'a' :: 'l' :: 's' :: 'e' :: r => some (.bool false, r)
    | 'n' :: 'u' :: 'l' :: 'l' :: r => some (.none, r)
    | '-' :: r =>
      match jNat r with
      | some p => some (.int (-(p.1 : Int)), p.2)
      | Option.none => Option.none
    | c :: r =>
      if c.isDigit then
        match jNat (c :: r) with
        | some p => some (.int (p.1 : Int), p.2)
        | Option.none => Option.none
      else Option.none
    | [] => Option.none

/-- Items of a non-empty array. -/
def jItems : Nat → List Char → Option (PyList × List Char)
  | 0, _ => Option.none
  | fuel + 1, cs =>
    match jVal fuel cs with
    | Option.none => Option.none
    | some (v, r) =>
      match r.dropWhile jsonWs with
      | ',' :: r2 => (jItems fuel r2).map (fun p => (.cons v p.1, p.2))
      | ']' :: r2 => some (.cons v .nil, r2)
      | _ => Option.none

/-- Fields of a non-empty object. -/
def jFields : Nat → List Char → Option (PyDict × List Char)
  | 0, _ => Option.none
  | fuel + 1, cs =>
    match cs.dropWhile jsonWs with
    | '"' :: rest =>
      match jStr fuel rest with
      | Option.none => Option.none
      | some (k, r) =>
        match r.dropWhile jsonWs with
        | ':' :: r2 =>
          match jVal fuel r2 with
          | Option.none => Option.none
          | some (v, r3) =>
            match r3.dropWhile jsonWs with
            | ',' :: r4 => (jFields fuel r4).map (fun p => (.cons ⟨k⟩ v p.1, p.2))
            | '}' :: r4 => some (.cons ⟨k⟩ v .nil, r4)
            | _ => Option.none
        | _ => Option.none
    | _ => Option.none

/-- Body of a JSON string after the opening quote: the decoded characters
and the text after the closing quote. -/
def jStr : Nat → List Char → Option (List Char × List Char)
  | 0, _ => Option.none
  | fuel + 1, cs =>
    match cs with
    | [] => Option.none
    | '"' :: rest => some ([], rest)
    | '\\' :: esc =>
      match esc with
      | 'n' :: r => (jStr fuel r).map (fun p => ('\n' :: p.1, p.2))
      | 't' :: r => (jStr fuel r).map (fun p => ('\t' :: p.1, p.2))
      | 'r' :: r => (jStr fuel r).map (fun p => ('\r' :: p.1, p.2))
      | 'b' :: r => (jStr fuel r).map (fun p => ('\x08' :: p.1, p.2))
      | 'f' :: r => (jStr fuel r).map (fun p => ('\x0c' :: p.1, p.2))
      | '"' :: r => (jStr fuel r).map (fun p => ('"' :: p.1, p.2))
      | '\\' :: r => (jStr fuel r).map (fun p => ('\\' :: p.1, p.2))
      | '/' :: r => (jStr fuel r).map (fun p => ('/' :: p.1, p.2))
      | 'u' :: a :: b :: c :: d :: r =>
        match hexVal a, hexVal b, hexVal c, hexVal d with
        | some va, some vb, some vc, some vd =>
          (jStr fuel r).map (fun p =>
            (Char.ofNat (va * 4096 + vb * 256 + vc * 16 + vd) :: p.1, p.2))
        | _, _, _, _ => Option.none
      | _ => Option.none
    | c :: rest =>
      if c.toNat < 32 then Option.none
      else (jStr fuel rest).map (fun p => (c :: p.1, p.2))
end

/-- `json.loads` (modelled subset): one JSON value plus whitespace must
consume the whole input. -/
def parseJson (s : String) : Option PyVal :=
  match jVal (2 * s.data.length + 2) s.data with
  | some (v, rest) => if rest.dropWhile jsonWs = [] then some v else Option.none
  | Option.none => Option.none

/-- Key membership in a dict (`key in obj`). -/
def PyDict.hasKey : PyDict → String → Bool
  | .nil, _ => false
  | .cons k _ tl, key => k = key || tl.hasKey key

mutual
/-- `_find_in_rsc` (src/granolocal.py:510-524): the first dict, in
depth-first insertion order, whose keys contain `key`.  (The Python
`if result:` truthiness test never sees a falsy non-None result: a returned
dict contains the key, so it is non-empty.) -/
def find_in_rsc : PyVal → String → Option PyVal
  | .dict kvs, key =>
    if kvs.hasKey key then some (.dict kvs) else findInDictVals kvs key
  | .list xs, key => findInListVals xs key
  | _, _ => Option.none

/-- Search a list's items in order. -/
def findInListVals : PyList → String → Option PyVal
  | .nil, _ => Option.none
  | .cons x tl, key =>
    match find_in_rsc x key with
    | some r => some r
    | Option.none => findInListVals tl key

/-- Search a dict's values in insertion order. -/
def findInDictVals : PyDict → String → Option PyVal
  | .nil, _ => Option.none
  | .cons _ v tl, key =>
    match find_in_rsc v key with
    | some r => some r
    | Option.none => findInDictVals tl key
end

/-- `decoded.find("[")` and the slice `decoded[json_start:]`: the tail of
the string from the first `[`, if any. -/
def jsonTail (decoded : String) : Option String :=
  if decoded.data.contains '[' then
    some ⟨decoded.data.dropWhile (fun c => c != '[')⟩
  else Option.none

/-- The documentPanel loop of `fetch_shared_note` (lines 442-464): decode
each payload; skip fragments without the marker substring, without a `[`,
or that fail to parse; the first fragment that parses ends the loop
(`break`) whether or not `_find_in_rsc` locates the subtree in it. -/
def docScan : List String → Option PyVal
  | [] => Option.none
  | p :: rest =>
    let decoded := decode_js_string p
    if containsSub decoded "documentPanel" then
      match jsonTail decoded with
      | Option.none => docScan rest
      | some t =>
        match parseJson t with
        | Option.none => docScan rest
        | some rsc => find_in_rsc rsc "documentPanel"
    else docScan rest

/-- Is a decoded fragment HTML-shaped (lines 470-477): trimmed text starting
with `<` whose first 20 characters contain `<h`, `<ul` or `<p`? -/
def isHtmlShaped (decoded : String) : Bool :=
  let stripped := pyStrip decoded
  strStartsWith stripped "<" &&
    (containsSub ⟨stripped.data.take 20⟩ "<h" ||
     containsSub ⟨stripped.data.take 20⟩ "<ul" ||
     containsSub ⟨stripped.data.take 20⟩ "<p")

/-- The summary loop of `fetch_shared_note`: the first HTML-shaped decoded
fragment, stripped. -/
def htmlScan : List String → Option String
  | [] => Option.none
  | p :: rest =>
    if isHtmlShaped (decode_js_string p) then some (pyStrip (decode_js_string p))
    else htmlScan rest

/-- The pure scan core of `fetch_shared_note`: locate the documentPanel
subtree — raising `ValueError` when it is absent — and pair it with the
first HTML-shaped fragment, the empty string when there is none
(`summary_html or ""`). -/
def fetch_shared_note_scan (payloads : List String) :
    Except String (PyVal × String) :=
  match docScan payloads with
  | Option.none => .error "Could not find document data in shared note page"
  | some d => .ok (d, (htmlScan payloads).getD "")

theorem htmlScan_none (ps : List String)
    (h : ∀ p ∈ ps, isHtmlShaped (decode_js_string p) = false) :
    htmlScan ps = Option.none := by
  induction ps with
  | nil => rfl
  | cons p rest ih =>
    rw [htmlScan, if_neg (by simp [h p (by simp)])]
    exact ih (fun q hq => h q (List.mem_cons_of_mem _ hq))

/-- C3 counterexample: a payload list whose single fragment parses to a
documentPanel subtree but contains no HTML-shaped fragment is *not* an
error: the scan succeeds with an empty summary. -/
theorem C3_counterexample :
    isHtmlShaped (decode_js_string "[\x7b\\\"documentPanel\\\":1\x7d]") = false ∧
    fetch_shared_note_scan ["[\x7b\\\"documentPanel\\\":1\x7d]"] =
      .ok (pyDict [("documentPanel", .int 1)], "") :=
  ⟨rfl, rfl⟩

/-- C3 (amended): the scan fails with the distinct not-found error exactly
when the documentPanel subtree is not located; a missing HTML-shaped
fragment is not an error — the summary is then the empty string. -/
theorem C3_locate_errors :
    (∀ ps : List String, docScan ps = Option.none →
      fetch_shared_note_scan ps =
        .error "Could not find document data in shared note page") ∧
    (∀ (ps : List String) (d : PyVal), docScan ps = some d →
      fetch_shared_note_scan ps = .ok (d, (htmlScan ps).getD "")) ∧
    (∀ (ps : List String) (d : PyVal), docScan ps = some d →
      (∀ p ∈ ps, isHtmlShaped (decode_js_string p) = false) →
      fetch_shared_note_scan ps = .ok (d, "")) := by
  refine ⟨fun ps h => ?_, fun ps d h => ?_, fun ps d h hh => ?_⟩
  · rw [fetch_shared_note_scan, h]
  · rw [fetch_shared_note_scan, h]
  · rw [fetch_shared_note_scan, h, htmlScan_none ps hh]
    rfl

/-- C3 witness: the amended theorem applied to the concrete payload list. -/
theorem C3_witness :
    fetch_shared_note_scan ["[\x7b\\\"documentPanel\\\":1\x7d]"] =
      .ok (pyDict [("documentPanel", PyVal.int 1)], "") :=
  C3_locate_errors.2.2 ["[\x7b\\\"documentPanel\\\":1\x7d]"]
    (pyDict [("documentPanel", PyVal.int 1)]) rfl (by decide)

/-! ## `sanitize_filename` (C10) -/

/-- The character class of `re.sub(r'[<>:"/\\|?*]', "", name)`. -/
def badFileChar (c : Char) : Bool :=
  c = '<' || c = '>' || c = ':' || c = '"' || c = '/' || c = '\\' || c = '|' ||
    c = '?' || c = '*'

/-- `re.sub(r"\s+", " ", name)`: every maximal whitespace run becomes one
space.  The flag records whether the scan is inside a run whose space was
already emitted. -/
def wsCollapse : List Char → Bool → List Char
  | [], _ => []
  | c :: cs, inRun =>
    if isPyWs c then
      (if inRun then wsCollapse cs true else ' ' :: wsCollapse cs true)
    else c :: wsCollapse cs false

/-- `l.rsplit(" ", 1)[0]` when a space occurs: the text before the last
space (`Option.none` when the list has no space). -/
def bls : List Char → Option (List Char)
  | [] => Option.none
  | c :: rest =>
    match bls rest with
    | some r => some (c :: r)
    | Option.none => if c = ' ' then some [] else Option.none

/-- `l.rsplit(" ", 1)[0]`: the whole list when no space occurs. -/
def beforeLastSpace (l : List Char) : List Char := (bls l).getD l

/-- The truncation and `or "Untitled"` tail of `sanitize_filename`, applied
to the cleaned character list. -/
def sanitizeFinish (cleaned : List Char) : String :=
  let truncated :=
    if 80 < cleaned.length then beforeLastSpace (cleaned.take 80) else cleaned
  if truncated = [] then "Untitled" else ⟨truncated⟩

/-- The character-cleaning phase of `sanitize_filename`: remove the
forbidden characters, collapse whitespace runs to single spaces, strip. -/
def cleanedList (name : String) : List Char :=
  pyStripL (wsCollapse (name.data.filter (fun c => !badFileChar c)) false)

/-- `sanitize_filename` (src/granolocal.py:190-197): remove the forbidden
characters, collapse whitespace runs to single spaces and strip, truncate
past 80 characters by cutting at the last space of the first 80, and fall
back to `"Untitled"` when nothing is left. -/
def sanitize_filename (name : String) : String :=
  sanitizeFinish (cleanedList name)

/-- No two adjacent whitespace characters. -/
def noWsRun : List Char → Bool
  | a :: b :: t => !(isPyWs a && isPyWs b) && noWsRun (b :: t)
  | _ => true

theorem noWsRun_cons_cons (a b : Char) (t : List Char) :
    noWsRun (a :: b :: t) = (!(isPyWs a && isPyWs b) && noWsRun (b :: t)) := rfl

theorem noWsRun_tail (a : Char) (t : List Char)
    (h : noWsRun (a :: t) = true) : noWsRun t = true := by
  cases t with
  | nil => rfl
  | cons b t' =>
    rw [noWsRun_cons_cons] at h
    exact (Bool.and_eq_true_iff.mp h).2

theorem noWsRun_append_left (t l : List Char)
    (h : noWsRun (t ++ l) = true) : noWsRun l = true := by
  induction t with
  | nil => exact h
  | cons x xs ih => exact ih (noWsRun_tail x _ h)

theorem noWsRun_pre (l₁ : List Char) :
    ∀ l₂ : List Char, l₁ <+: l₂ → noWsRun l₂ = true → noWsRun l₁ = true := by
  induction l₁ with
  | nil => intro l₂ _ _; rfl
  | cons a t₁ ih =>
    intro l₂ hpre h
    obtain ⟨t, ht⟩ := hpre
    cases t₁ with
    | nil => rfl
    | cons b t₁' =>
      subst ht
      rw [List.cons_append, List.cons_append] at h
      rw [noWsRun_cons_cons] at h
      rw [noWsRun_cons_cons]
      refine Bool.and_eq_true_iff.mpr ⟨(Bool.and_eq_true_iff.mp h).1, ?_⟩
      exact ih (b :: (t₁' ++ t)) ⟨t, List.cons_append _ _ _⟩
        (Bool.and_eq_true_iff.mp h).2

theorem wsCollapse_mem (l : List Char) :
    ∀ f, ∀ c ∈ wsCollapse l f, c = ' ' ∨ c ∈ l := by
  induction l with
  | nil => intro f c hc; exact absurd hc (by simp [wsCollapse])
  | cons x xs ih =>
    intro f c hc
    rw [wsCollapse] at hc
    by_cases hx : isPyWs x = true
    · rw [if_pos hx] at hc
      by_cases hf : f = true
      · rw [if_pos hf] at hc
        rcases ih true c hc with h | h
        · exact Or.inl h
        · exact Or.inr (List.mem_cons_of_mem _ h)
      · rw [if_neg hf] at hc
        rcases List.mem_cons.mp hc with h | h
        · exact Or.inl h
        · rcases ih true c h with h' | h'
          · exact Or.inl h'
          · exact Or.inr (List.mem_cons_of_mem _ h')
    · rw [if_neg hx] at hc
      rcases List.mem_cons.mp hc with h | h
      · exact Or.inr (h ▸ List.mem_cons_self _ _)
      · rcases ih false c h with h' | h'
        · exact Or.inl h'
        · exact Or.inr (List.mem_cons_of_mem _ h')

theorem wsCollapse_ws_space (l : List Char) :
    ∀ f, ∀ c ∈ wsCollapse l f, isPyWs c = true → c = ' ' := by
  induction l with
  | nil => intro f c hc _; exact absurd hc (by simp [wsCollapse])
  | cons x xs ih =>
    intro f c hc hw
    rw [wsCollapse] at hc
    by_cases hx : isPyWs x = true
    · rw [if_pos hx] at hc
      by_cases hf : f = true
      · rw [if_pos hf] at hc; exact ih true c hc hw
      · rw [if_neg hf] at hc
        rcases List.mem_cons.mp hc with h | h
        · exact h
        · exact ih true c h hw
    · rw [if_neg hx] at hc
      rcases List.mem_cons.mp hc with h | h
      · exact absurd (h ▸ hw) hx
      · exact ih false c h hw

theorem wsCollapse_head_true (l : List Char) :
    ∀ c cs, wsCollapse l true = c :: cs → isPyWs c = false := by
  induction l with
  | nil => intro c cs h; exact absurd h (by simp [wsCollapse])
  | cons x xs ih =>
    intro c cs h
    rw [wsCollapse] at h
    by_cases hx : isPyWs x = true
    · rw [if_pos hx, if_pos rfl] at h
      exact ih c cs h
    · rw [if_neg hx] at h
      injection h with h1 _
      subst h1
      simpa using hx

theorem wsCollapse_noWsRun (l : List Char) :
    ∀ f, noWsRun (wsCollapse l f) = true := by
  induction l with
  | nil => intro f; rfl
  | cons x xs ih =>
    intro f
    rw [wsCollapse]
    by_cases hx : isPyWs x = true
    · rw [if_pos hx]
      by_cases hf : f = true
      · rw [if_pos hf]; exact ih true
      · rw [if_neg hf]
        cases hW : wsCollapse xs true with
        | nil => rfl
        | cons c cs =>
          rw [noWsRun_cons_cons]
          have hc : isPyWs c = false := wsCollapse_head_true xs c cs hW
          have htail := ih true
          rw [hW] at htail
          simp [hc, htail]
    · rw [if_neg hx]
      cases hW : wsCollapse xs false with
      | nil => rfl
      | cons c cs =>
        rw [noWsRun_cons_cons]
        have hx' : isPyWs x = false := by simpa using hx
        have htail := ih false
        rw [hW] at htail
        simp [hx', htail]

theorem bls_pre (l : List Char) : ∀ r, bls l = some r → r <+: l := by
  induction l with
  | nil => intro r h; exact absurd h (by simp [bls])
  | cons c rest ih =>
    intro r h
    rw [bls] at h
    cases hb : bls rest with
    | some r' =>
      rw [hb] at h
      injection h with h'
      subst h'
      exact List.cons_prefix_cons.mpr ⟨rfl, ih r' hb⟩
    | none =>
      rw [hb] at h
      by_cases hc : c = ' '
      · rw [if_pos hc] at h
        injection h with h'
        subst h'
        exact List.nil_prefix
      · rw [if_neg hc] at h
        exact absurd h (by simp)

theorem bls_none_no_space (l : List Char) (h : bls l = Option.none) :
    ' ' ∉ l := by
  induction l with
  | nil => simp
  | cons c rest ih =>
    rw [bls] at h
    cases hb : bls rest with
    | some r' => rw [hb] at h; exact absurd h (by simp)
    | none =>
      rw [hb] at h
      by_cases hc : c = ' '
      · rw [if_pos hc] at h; exact absurd h (by simp)
      · intro hmem
        rcases List.mem_cons.mp hmem with h1 | h1
        · exact hc h1.symm
        · exact ih hb h1

theorem bls_some_nil (l : List Char) (h : bls l = some []) :
    ∃ m, l = ' ' :: m := by
  cases l with
  | nil => exact absurd h (by simp [bls])
  | cons c rest =>
    rw [bls] at h
    cases hb : bls rest with
    | some r' =>
      rw [hb] at h
      injection h with h'
      exact absurd h' (by simp)
    | none =>
      rw [hb] at h
      by_cases hc : c = ' '
      · exact ⟨rest, by rw [hc]⟩
      · rw [if_neg hc] at h; exact absurd h (by simp)

theorem bls_last (l : List Char) :
    ∀ r, noWsRun l = true → bls l = some r →
      ∀ c, r.getLast? = some c → isPyWs c = false := by
  induction l with
  | nil => intro r _ h; exact absurd h (by simp [bls])
  | cons x rest ih =>
    intro r hn h c hlast
    rw [bls] at h
    cases hb : bls rest with
    | some r' =>
      rw [hb] at h
      injection h with h'
      subst h'
      cases hr' : r' with
      | nil =>
        rw [hr'] at hlast
        have hcx : c = x := by simpa using hlast.symm
        subst hcx
        obtain ⟨m, hm⟩ := bls_some_nil rest (hr' ▸ hb)
        rw [hm, noWsRun_cons_cons] at hn
        have h1 := (Bool.and_eq_true_iff.mp hn).1
        simpa [isPyWs] using h1
      | cons y ys =>
        rw [hr', List.getLast?_cons_cons] at hlast
        exact ih (y :: ys) (noWsRun_tail x rest hn) (hr' ▸ hb) c hlast
    | none =>
      rw [hb] at h
      by_cases hc : x = ' '
      · rw [if_pos hc] at h
        injection h with h'
        subst h'
        exact absurd hlast (by simp)
      · rw [if_neg hc] at h
        exact absurd h (by simp)

theorem dropTrail_pre (p : Char → Bool) (l : List Char) :
    dropTrailWhile p l <+: l := by
  induction l with
  | nil => exact List.nil_prefix
  | cons c cs ih =>
    rw [dropTrail_cons]
    cases hr : dropTrailWhile p cs with
    | nil =>
      by_cases hp : p c = true
      · rw [if_pos hp]; exact List.nil_prefix
      · rw [if_neg hp]
        exact List.cons_prefix_cons.mpr ⟨rfl, List.nil_prefix⟩
    | cons r0 rs =>
      exact List.cons_prefix_cons.mpr ⟨rfl, hr ▸ ih⟩

theorem head_of_pre (l₁ l₂ : List Char) (c : Char)
    (hp : l₁ <+: l₂) (h : l₁.head? = some c) : l₂.head? = some c := by
  obtain ⟨t, rfl⟩ := hp
  cases l₁ with
  | nil => exact absurd h (by simp)
  | cons a t₁ => simpa using h

theorem dropWhile_suffix_own (p : Char → Bool) (l : List Char) :
    l.dropWhile p <:+ l := by
  induction l with
  | nil => exact List.suffix_rfl
  | cons c cs ih =>
    rw [List.dropWhile_cons]
    by_cases hp : p c = true
    · rw [if_pos hp]; exact ih.trans (List.suffix_cons c cs)
    · rw [if_neg hp]

theorem pyStripL_head_not_ws (l : List Char) :
    ∀ c, (pyStripL l).head? = some c → isPyWs c = false := by
  intro c hc
  rw [pyStripL] at hc
  cases hD : l.dropWhile isPyWs with
  | nil =>
    rw [hD, show dropTrailWhile isPyWs ([] : List Char) = [] from rfl] at hc
    exact absurd hc (by simp)
  | cons d ds =>
    rw [hD] at hc
    rcases dropTrail_head isPyWs d ds with hnil | ⟨r, hr⟩
    · rw [hnil] at hc; exact absurd hc (by simp)
    · rw [hr] at hc
      have hdc : d = c := by simpa using hc
      subst hdc
      exact dropWhile_head_not isPyWs l d ds hD

theorem sanitizeFinish_props (m : List Char)
    (hNW : noWsRun m = true)
    (hws : ∀ c ∈ m, isPyWs c = true → c = ' ')
    (hbad : ∀ c ∈ m, badFileChar c = false)
    (hhead : ∀ c, m.head? = some c → isPyWs c = false)
    (hlast : ∀ c, m.getLast? = some c → isPyWs c = false) :
    sanitizeFinish m ≠ "" ∧
    (sanitizeFinish m).length ≤ 80 ∧
    (∀ c ∈ (sanitizeFinish m).data, badFileChar c = false) ∧
    noWsRun (sanitizeFinish m).data = true ∧
    (∀ c ∈ (sanitizeFinish m).data, isPyWs c = true → c = ' ') ∧
    (∀ c, (sanitizeFinish m).data.head? = some c → isPyWs c = false) ∧
    (∀ c, (sanitizeFinish m).data.getLast? = some c → isPyWs c = false) := by
  have hrdef : sanitizeFinish m =
      (if (if 80 < m.length then beforeLastSpace (m.take 80) else m) = []
       then "Untitled"
       else ⟨if 80 < m.length then beforeLastSpace (m.take 80) else m⟩) := rfl
  set r := if 80 < m.length then beforeLastSpace (m.take 80) else m with hr
  have hpre : r <+: m := by
    rw [hr]
    by_cases h80 : 80 < m.length
    · rw [if_pos h80]
      have htk : m.take 80 <+: m := List.take_prefix 80 m
      rw [beforeLastSpace]
      cases hb : bls (m.take 80) with
      | some r' => simpa using (bls_pre _ r' hb).trans htk
      | none => simpa using htk
    · rw [if_neg h80]
  have hlen : r.length ≤ 80 := by
    rw [hr]
    by_cases h80 : 80 < m.length
    · rw [if_pos h80]
      have h1 : (beforeLastSpace (m.take 80)).length ≤ (m.take 80).length := by
        rw [beforeLastSpace]
        cases hb : bls (m.take 80) with
        | some r' => simpa using (bls_pre _ r' hb).length_le
        | none => simp
      have h2 : (m.take 80).length ≤ 80 := by simp
      omega
    · rw [if_neg h80]; omega
  have hr_mem : ∀ c ∈ r, c ∈ m := fun c hc => hpre.subset hc
  have hr_nw : noWsRun r = true := noWsRun_pre r m hpre hNW
  have hr_head : ∀ c, r.head? = some c → isPyWs c = false := fun c hc =>
    hhead c (head_of_pre r m c hpre hc)
  have hr_last : ∀ c, r.getLast? = some c → isPyWs c = false := by
    intro c hc
    rw [hr] at hc
    by_cases h80 : 80 < m.length
    · rw [if_pos h80, beforeLastSpace] at hc
      cases hb : bls (m.take 80) with
      | some r' =>
        rw [hb] at hc
        simp only [Option.getD_some] at hc
        exact bls_last (m.take 80) r'
          (noWsRun_pre _ m (List.take_prefix 80 m) hNW) hb c hc
      | none =>
        rw [hb] at hc
        simp only [Option.getD_none] at hc
        by_contra hcw
        have hcw' : isPyWs c = true := by simpa using hcw
        have hcm : c ∈ m.take 80 := by
          rcases List.getLast?_eq_some_iff.mp hc with ⟨l', hl'⟩
          rw [hl']
          simp
        have hsp : c = ' ' := hws c (List.take_subset 80 m hcm) hcw'
        exact bls_none_no_space _ hb (hsp ▸ hcm)
    · rw [if_neg h80] at hc
      exact hlast c hc
  by_cases h0 : r = []
  · rw [hrdef, if_pos h0]
    refine ⟨by decide, by decide, ?_, by decide, ?_, ?_, ?_⟩
    · intro c hc
      fin_cases hc <;> decide
    · intro c hc
      fin_cases hc <;> decide
    · intro c hc
      have hc' : some 'U' = some c := hc
      cases hc'
      decide
    · intro c hc
      have hc' : some 'd' = some c := hc
      cases hc'
      decide
  · rw [hrdef, if_neg h0]
    have hdata : (String.mk r).data = r := rfl
    refine ⟨?_, ?_, ?_, ?_, ?_, ?_, ?_⟩
    · intro he
      exact h0 (congrArg String.data he)
    · exact hlen
    · intro c hc
      exact hbad c (hr_mem c hc)
    · exact hr_nw
    · intro c hc
      exact hws c (hr_mem c hc)
    · exact hr_head
    · exact hr_last

/-- C10: for every input, `sanitize_filename` returns a non-empty string of
at most 80 characters, free of the characters `<>:"/\|?*`, with no runs of
consecutive whitespace (all remaining whitespace is single spaces and the
ends are trimmed); an input whose cleaned form is empty yields
`"Untitled"`. -/
theorem C10_sanitize_filename (s : String) :
    sanitize_filename s ≠ "" ∧
    (sanitize_filename s).length ≤ 80 ∧
    (∀ c ∈ (sanitize_filename s).data, badFileChar c = false) ∧
    noWsRun (sanitize_filename s).data = true ∧
    (∀ c ∈ (sanitize_filename s).data, isPyWs c = true → c = ' ') ∧
    (∀ c, (sanitize_filename s).data.head? = some c → isPyWs c = false) ∧
    (∀ c, (sanitize_filename s).data.getLast? = some c → isPyWs c = false) ∧
    (cleanedList s = [] → sanitize_filename s = "Untitled") := by
  have hw_nw : noWsRun (wsCollapse (s.data.filter (fun c => !badFileChar c)) false)
      = true := wsCollapse_noWsRun _ false
  have hd_nw : noWsRun ((wsCollapse (s.data.filter (fun c => !badFileChar c))
      false).dropWhile isPyWs) = true := by
    obtain ⟨t, ht⟩ :=
      dropWhile_suffix_own isPyWs (wsCollapse (s.data.filter (fun c => !badFileChar c)) false)
    exact noWsRun_append_left t _ (by rw [ht]; exact hw_nw)
  have hm_nw : noWsRun (cleanedList s) = true :=
    noWsRun_pre _ _ (dropTrail_pre _ _) hd_nw
  have hm_mem : ∀ c ∈ cleanedList s,
      c ∈ wsCollapse (s.data.filter (fun c => !badFileChar c)) false := by
    intro c hc
    exact (dropWhile_suffix_own isPyWs _).subset ((dropTrail_pre isPyWs _).subset hc)
  have hm_ws : ∀ c ∈ cleanedList s, isPyWs c = true → c = ' ' := fun c hc =>
    wsCollapse_ws_space _ false c (hm_mem c hc)
  have hm_bad : ∀ c ∈ cleanedList s, badFileChar c = false := by
    intro c hc
    rcases wsCollapse_mem _ false c (hm_mem c hc) with h | h
    · subst h; decide
    · simpa using (List.mem_filter.mp h).2
  have hm_head : ∀ c, (cleanedList s).head? = some c → isPyWs c = false :=
    pyStripL_head_not_ws _
  have hm_last : ∀ c, (cleanedList s).getLast? = some c → isPyWs c = false :=
    dropTrail_getLast isPyWs _
  have props := sanitizeFinish_props (cleanedList s) hm_nw hm_ws hm_bad hm_head hm_last
  exact ⟨props.1, props.2.1, props.2.2.1, props.2.2.2.1, props.2.2.2.2.1,
    props.2.2.2.2.2.1, props.2.2.2.2.2.2,
    fun h0 => by rw [sanitize_filename, h0]; rfl⟩

/-- C10 witness: the theorem applied at concrete inputs, evaluating the
function. -/
theorem C10_witness :
    badFileChar 'a' = false ∧
    sanitize_filename " a\t\tb<>" = "a b" ∧
    sanitize_filename "???" = "Untitled" :=
  ⟨(C10_sanitize_filename " a\t\tb<>").2.2.1 'a' (by decide),
   by decide,
   (C10_sanitize_filename "???").2.2.2.2.2.2.2 (by decide)⟩
